import Mathlib

/-!
# Verification of `mpf/core/platform_batch_light_system.py`

Shallow embedding of the batching light system.  Lights are identified by
their channel number (a `Nat`); Python object identity coincides with the
channel number here (the interface defines no `__eq__`, so `==` is identity,
and one object exists per hardware output).  Brightness values and fade
durations (milliseconds) are `Nat`; wall-clock time is `ℚ` (Python float
seconds).  The event loop's clock is modelled as a stream `Nat → ℚ`: the
`n`-th call of `clock.get_time()` returns `clock n`, and a read counter is
threaded through every function that reads the clock.

Python exceptions are modelled with `Except String`; calling a `None`
callback is the `TypeError` case.  A tick of the `_send_updates` loop is one
atomic step (the cooperative single-loop model of the code); its outputs are
the mutated state, the list of batches handed to `update_callback`, and the
trace of `get_fade_and_brightness` calls made during the tick.

Faithfulness notes, mirrored from the source:
* `_send_updates` calls `sorted(self.dirty_schedule, key=...)` and
  `sorted(self.dirty_lights, key=self.sort_function)` and discards the
  results (Python `sorted` is not in-place), so neither collection is
  actually reordered; the embedding therefore performs no sort.
* `get_fade_and_brightness` guards the cache with `if self._last_brightness:`
  which is Python truthiness: `None` and `0` both fail the test.
-/

/-- A fade callback: `(max_fade_ms, current_time) ↦ (brightness, fade_ms, done)`,
the signature of the `color_and_fade_callback` stored by `set_fade`. -/
abbrev FadeCallback : Type := Nat → ℚ → Nat × Nat × Bool

/-- Python truthiness of an optional number: `None` and `0` are falsy. -/
def pyTruthy : Option Nat → Bool
  | none => false
  | some b => b != 0

/-- State of one `PlatformBatchLight`: channel number, the hardware
capability `get_max_fade_ms()`, the stored `_callback` (`None` before the
first `set_fade`), and the `_last_brightness` terminal cache. -/
structure PlatformBatchLight where
  number : Nat
  max_fade_ms : Nat
  callback : Option FadeCallback
  last_brightness : Option Nat

/-- `PlatformBatchLight.__init__`: callback and cache start as `None`. -/
def PlatformBatchLight.init (number : Nat) (max_fade_ms : Nat) : PlatformBatchLight :=
  { number := number, max_fade_ms := max_fade_ms, callback := none, last_brightness := none }

/-- Result of one `get_fade_and_brightness` call: the returned triple, the
updated light, and whether the stored callback was invoked. -/
abbrev EvalResult : Type := (Nat × Nat × Bool) × PlatformBatchLight × Bool

/-- `PlatformBatchLight.get_fade_and_brightness(current_time)`.
`if self._last_brightness:` is truthiness; a falsy cache falls through to
`self._callback(...)`, which raises `TypeError` when the callback is `None`.
When the callback reports done, the brightness is cached. -/
def PlatformBatchLight.get_fade_and_brightness (l : PlatformBatchLight) (t : ℚ) :
    Except String EvalResult :=
  if pyTruthy l.last_brightness then
    .ok ((l.last_brightness.getD 0, 0, true), l, false)
  else
    match l.callback with
    | none => .error "TypeError: NoneType object is not callable"
    | some cb =>
      let r := cb l.max_fade_ms t
      let l' : PlatformBatchLight :=
        if r.2.2 then { l with last_brightness := some r.1 } else l
      .ok (r, l', true)

/-- The collection of light objects, indexed by channel number. -/
abbrev LightMap : Type := Nat → PlatformBatchLight

/-- Pointwise update of the light map. -/
def LightMap.set (lm : LightMap) (i : Nat) (l : PlatformBatchLight) : LightMap :=
  fun j => if j = i then l else lm j

/-- State of a `PlatformBatchLightSystem` (the fields of `__init__` that the
loop reads; the clock, `update_callback` and `update_task` live outside). -/
structure PlatformBatchLightSystem where
  dirty_lights : List Nat
  dirty_schedule : List (ℚ × Nat)
  sort_function : Nat → ℚ
  is_sequential_function : Nat → Nat → Bool
  update_hz : ℚ
  max_batch_size : Nat

/-- `PlatformBatchLightSystem.__init__`: empty dirty list and schedule, all
configuration stored as given — no validation of any argument. -/
def PlatformBatchLightSystem.init (sort_function : Nat → ℚ)
    (is_sequential_function : Nat → Nat → Bool) (update_hz : ℚ)
    (max_batch_size : Nat) : PlatformBatchLightSystem :=
  { dirty_lights := [], dirty_schedule := [],
    sort_function := sort_function,
    is_sequential_function := is_sequential_function,
    update_hz := update_hz, max_batch_size := max_batch_size }

/-- `PlatformBatchLightSystem.mark_dirty(light)`: append to `dirty_lights`. -/
def PlatformBatchLightSystem.mark_dirty (sys : PlatformBatchLightSystem) (i : Nat) :
    PlatformBatchLightSystem :=
  { sys with dirty_lights := sys.dirty_lights ++ [i] }

/-- `PlatformBatchLight.set_fade(callback)`: mark dirty in the owning system,
store the callback, clear the terminal cache. -/
def set_fade (sys : PlatformBatchLightSystem) (lm : LightMap) (i : Nat)
    (cb : FadeCallback) : PlatformBatchLightSystem × LightMap :=
  (sys.mark_dirty i,
   lm.set i { lm i with callback := some cb, last_brightness := none })

/-- The event-loop clock: the `n`-th `clock.get_time()` call returns `clock n`. -/
abbrev Clock : Type := Nat → ℚ

/-- One entry handed to `update_callback`: `(light, brightness, common_fade_ms)`. -/
abbrev BatchEntry : Type := Nat × Nat × Nat

/-- One batch dispatched to the write sink. -/
abbrev Batch : Type := List BatchEntry

/-- One `get_fade_and_brightness` call made during a tick:
`(light, brightness, fade_ms, done, current_time)`. -/
abbrev TraceEvent : Type := Nat × Nat × Nat × Bool × ℚ

/-- Mutable data threaded through batch flushing: the lights, the schedule
(`dirty_schedule` appends), the batches dispatched so far, the evaluation
trace, and the clock read counter. -/
structure FlushState where
  lights : LightMap
  schedule : List (ℚ × Nat)
  batches : List Batch
  trace : List TraceEvent
  counter : Nat

/-- The promotion loop at the top of `_send_updates`:
`while self.dirty_schedule and self.dirty_schedule[0][0] <= self.clock.get_time():`
moves the head into the dirty list and deletes it.  Returns the promoted
lights in order, the remaining schedule, and the advanced read counter.
(The preceding `sorted(self.dirty_schedule, key=...)` call discards its
result, so the schedule is scanned exactly as stored.) -/
def promote (clock : Clock) : List (ℚ × Nat) → Nat → List Nat × List (ℚ × Nat) × Nat
  | [], k => ([], [], k)
  | (d, i) :: rest, k =>
    if d ≤ clock k then
      let r := promote clock rest (k + 1)
      (i :: r.1, r.2.1, r.2.2)
    else
      ([], (d, i) :: rest, k + 1)

/-- The body of the `for light in sequential_lights` loop of
`_send_update_batch`, with the accumulator variables
(`sequential_brightness_list`, `common_fade_ms`, `current_time`) explicit.
Each light is evaluated at `t`; an incomplete fade appends
`(t + fade_ms / 1000, light)` to the schedule; the entry joins the current
sub-batch while the fade matches `common_fade_ms` and the sub-batch is below
`max_batch_size`, otherwise the sub-batch is dispatched (even when empty, as
the source does) and a fresh one starts after re-reading the clock.  The
trailing sub-batch is dispatched only when non-empty. -/
def sendUpdateBatchAux (clock : Clock) (max_batch_size : Nat) :
    List Nat → FlushState → Batch → Option Nat → ℚ → Except String FlushState
  | [], st, sbl, _, _ =>
    .ok { st with batches := st.batches ++ (if sbl.isEmpty then [] else [sbl]) }
  | i :: rest, st, sbl, common, t =>
    match (st.lights i).get_fade_and_brightness t with
    | .error e => .error e
    | .ok v =>
      if common.getD v.1.2.1 = v.1.2.1 ∧ sbl.length < max_batch_size then
        sendUpdateBatchAux clock max_batch_size rest
          { st with
            lights := st.lights.set i v.2.1
            schedule := if v.1.2.2 then st.schedule
                        else st.schedule ++ [(t + (v.1.2.1 : ℚ) / 1000, i)]
            trace := st.trace ++ [(i, v.1.1, v.1.2.1, v.1.2.2, t)] }
          (sbl ++ [(i, v.1.1, common.getD v.1.2.1)]) (some (common.getD v.1.2.1)) t
      else
        sendUpdateBatchAux clock max_batch_size rest
          { lights := st.lights.set i v.2.1
            schedule := if v.1.2.2 then st.schedule
                        else st.schedule ++ [(t + (v.1.2.1 : ℚ) / 1000, i)]
            batches := st.batches ++ [sbl]
            trace := st.trace ++ [(i, v.1.1, v.1.2.1, v.1.2.2, t)]
            counter := st.counter + 1 }
          [(i, v.1.1, v.1.2.1)] (some v.1.2.1) (clock st.counter)

/-- `_send_update_batch(sequential_lights)`: read the clock once for
`current_time`, then run the loop with an empty sub-batch and no common fade. -/
def send_update_batch (clock : Clock) (max_batch_size : Nat) (seq : List Nat)
    (st : FlushState) : Except String FlushState :=
  sendUpdateBatchAux clock max_batch_size seq { st with counter := st.counter + 1 }
    [] none (clock st.counter)

/-- The run-detection loop of `_send_updates`: walk the dirty list, skipping
a light equal (by identity) to the previous one, extending the current run
while `is_sequential_function(sequential_lights[-1], light)` holds, flushing
the run otherwise, and flushing the final run when non-empty.
(The preceding `sorted(self.dirty_lights, key=self.sort_function)` call
discards its result, so the dirty list is walked exactly as stored.) -/
def runLoopAux (clock : Clock) (max_batch_size : Nat) (seqf : Nat → Nat → Bool) :
    List Nat → Option Nat → List Nat → FlushState → Except String FlushState
  | [], _, seq, st =>
    if seq.isEmpty then .ok st else send_update_batch clock max_batch_size seq st
  | i :: rest, last, seq, st =>
    if last = some i then
      runLoopAux clock max_batch_size seqf rest last seq st
    else if seq.isEmpty then
      runLoopAux clock max_batch_size seqf rest (some i) [i] st
    else if seqf (seq.getLast?.getD 0) i then
      runLoopAux clock max_batch_size seqf rest (some i) (seq ++ [i]) st
    else
      match send_update_batch clock max_batch_size seq st with
      | .error e => .error e
      | .ok st' => runLoopAux clock max_batch_size seqf rest (some i) [i] st'

/-- Result of one tick of `_send_updates`. -/
structure TickResult where
  sys : PlatformBatchLightSystem
  lights : LightMap
  batches : List Batch
  trace : List TraceEvent
  counter : Nat

/-- One iteration of the `while True:` loop of `_send_updates` (one tick):
promote due schedule entries into the dirty list, walk the dirty list
detecting runs and flushing them, then clear the dirty list.  Both
`sorted(...)` calls of the source discard their results and are therefore
no-ops here. -/
def tick (clock : Clock) (sys : PlatformBatchLightSystem) (lm : LightMap)
    (k : Nat) : Except String TickResult :=
  let p := promote clock sys.dirty_schedule k
  let dirty := sys.dirty_lights ++ p.1
  match runLoopAux clock sys.max_batch_size sys.is_sequential_function dirty none []
      { lights := lm, schedule := p.2.1, batches := [], trace := [], counter := p.2.2 } with
  | .error e => .error e
  | .ok st =>
    .ok { sys := { sys with dirty_lights := [], dirty_schedule := st.schedule },
          lights := st.lights, batches := st.batches, trace := st.trace,
          counter := st.counter }

/-- Iterated ticks: the system state after `n` trips around the loop. -/
def runTicks (clock : Clock) :
    Nat → PlatformBatchLightSystem → LightMap → Nat →
    Except String (PlatformBatchLightSystem × LightMap × Nat)
  | 0, sys, lm, k => .ok (sys, lm, k)
  | n + 1, sys, lm, k =>
    match tick clock sys lm k with
    | .error e => .error e
    | .ok r => runTicks clock n r.sys r.lights r.counter

/-- Every light object currently holds a fade callback (true from the first
`set_fade` on, since nothing ever resets `_callback` to `None`). -/
def callbacksTotal (lm : LightMap) : Prop :=
  ∀ i, (lm i).callback.isSome = true

/-- The reschedule entry an evaluation produces: an incomplete evaluation
`(light, brightness, fade_ms, done = false, t)` yields
`(t + fade_ms / 1000, light)`; a complete one yields nothing. -/
def schedOf (e : TraceEvent) : Option (ℚ × Nat) :=
  if e.2.2.2.1 then none else some (e.2.2.2.2 + (e.2.2.1 : ℚ) / 1000, e.1)

/-! ### Concrete instances for counterexamples and witnesses -/

/-- A clock frozen at `q`. -/
def constClock (q : ℚ) : Clock := fun _ => q

/-- A clock whose `n`-th read returns `n` seconds. -/
def natClock : Clock := fun n => (n : ℚ)

/-- A callback that immediately completes at brightness `b`. -/
def doneCb (b : Nat) : FadeCallback := fun _ _ => (b, 0, true)

/-- A callback forever mid-fade at brightness `b` with `f` ms remaining. -/
def fadeCb (b f : Nat) : FadeCallback := fun _ _ => (b, f, false)

/-- Lights fresh out of `__init__`: no callback, no cached brightness. -/
def freshLights : LightMap := fun i => PlatformBatchLight.init i 1000

/-- Lights that completed `set_fade (doneCb (100 + i))`. -/
def demoLights : LightMap :=
  fun i => { number := i, max_fade_ms := 1000, callback := some (doneCb (100 + i)),
             last_brightness := none }

/-- A system sorting by channel number, with no two channels adjacent, and
`max_batch_size = 10`. -/
def demoSystem : PlatformBatchLightSystem :=
  PlatformBatchLightSystem.init (fun i => (i : ℚ)) (fun _ _ => false) 1000 10

/-- A system constructed with the malformed `max_batch_size = 0`. -/
def badSystem : PlatformBatchLightSystem :=
  PlatformBatchLightSystem.init (fun i => (i : ℚ)) (fun _ _ => false) 1000 0

/-- A light whose fade completed at brightness `0` (so `_last_brightness = 0`)
and whose stored callback now reports a new mid-fade value. -/
def zeroCachedLight : PlatformBatchLight :=
  { number := 0, max_fade_ms := 50, callback := some (fadeCb 7 250),
    last_brightness := some 0 }

/-- `set_fade` issued on channel 0, then on channel 1, then again on channel 0
(the second request on 0 arriving before the first is flushed), starting from
fresh lights: the dirty list ends up `[0, 1, 0]`. -/
def dupState : PlatformBatchLightSystem × LightMap :=
  let s1 := set_fade demoSystem freshLights 0 (doneCb 5)
  let s2 := set_fade s1.1 s1.2 1 (doneCb 6)
  set_fade s2.1 s2.2 0 (doneCb 7)

/-- The spec's scenario system: channels adjacent when numbered
consecutively, `max_batch_size = 2`, channels 0, 1, 2 dirty. -/
def scenarioSystem : PlatformBatchLightSystem :=
  { demoSystem with
    is_sequential_function := fun a b => b == a + 1
    max_batch_size := 2
    dirty_lights := [0, 1, 2] }

/-- Channel `i` is evaluated, at an evaluation time no earlier than `d`, at
some tick of the run starting from `(sys, lm, k)`. -/
def evaluatedAfterDue (clock : Clock) (sys : PlatformBatchLightSystem)
    (lm : LightMap) (k : Nat) (d : ℚ) (i : Nat) : Prop :=
  ∃ n sys' lm' k' r, runTicks clock n sys lm k = .ok (sys', lm', k')
    ∧ tick clock sys' lm' k' = .ok r
    ∧ ∃ e ∈ r.trace, e.1 = i ∧ d ≤ e.2.2.2.2

/-- A system with channel 0 dirty and channel 1 rescheduled for time 2. -/
def liveSystem : PlatformBatchLightSystem :=
  { demoSystem with
    dirty_lights := [0]
    dirty_schedule := [((2 : ℚ), 1)] }

/-! ### Evaluation lemmas -/

/-- A light with a stored callback always evaluates successfully. -/
theorem eval_ok_of_callback_isSome (l : PlatformBatchLight) (t : ℚ)
    (h : l.callback.isSome = true) : ∃ v, l.get_fade_and_brightness t = .ok v := by
  unfold PlatformBatchLight.get_fade_and_brightness
  by_cases hc : pyTruthy l.last_brightness = true
  · rw [if_pos hc]; exact ⟨_, rfl⟩
  · rw [if_neg hc]
    cases hcb : l.callback with
    | none => rw [hcb] at h; simp at h
    | some cb => exact ⟨_, rfl⟩

/-- Evaluation never changes the stored callback. -/
theorem eval_callback_eq (l : PlatformBatchLight) (t : ℚ) (v : EvalResult)
    (h : l.get_fade_and_brightness t = .ok v) : v.2.1.callback = l.callback := by
  unfold PlatformBatchLight.get_fade_and_brightness at h
  by_cases hc : pyTruthy l.last_brightness = true
  · rw [if_pos hc] at h
    cases h; rfl
  · rw [if_neg hc] at h
    cases hcb : l.callback with
    | none => rw [hcb] at h; cases h
    | some cb =>
      rw [hcb] at h
      cases h
      by_cases hd : (cb l.max_fade_ms t).2.2 = true
      · simp [hd, hcb]
      · simp [hd, hcb]

/-! ### Promotion lemmas -/

/-- `promote` splits the schedule: a popped prefix (whose lights it returns
in order) and the untouched remainder; every popped entry was due at one of
the clock reads consumed, and the counter only advances. -/
theorem promote_split (clock : Clock) (sched : List (ℚ × Nat)) (k : Nat) :
    ∃ pre, sched = pre ++ (promote clock sched k).2.1
      ∧ (promote clock sched k).1 = pre.map Prod.snd
      ∧ (∀ p ∈ pre, ∃ j, k ≤ j ∧ j < (promote clock sched k).2.2 ∧ p.1 ≤ clock j)
      ∧ k ≤ (promote clock sched k).2.2 := by
  induction sched generalizing k with
  | nil => exact ⟨[], by simp [promote]⟩
  | cons hd rest ih =>
    obtain ⟨d, i⟩ := hd
    by_cases hdue : d ≤ clock k
    · obtain ⟨pre, h1, h2, h3, h4⟩ := ih (k + 1)
      refine ⟨(d, i) :: pre, ?_, ?_, ?_, ?_⟩
      · simp [promote, hdue]; exact h1
      · simp [promote, hdue]; exact h2
      · intro p hp
        rcases List.mem_cons.mp hp with h | h
        · subst h
          refine ⟨k, le_refl k, ?_, hdue⟩
          have : k + 1 ≤ (promote clock rest (k + 1)).2.2 := h4
          simp only [promote, if_pos hdue]
          omega
        · obtain ⟨j, hj1, hj2, hj3⟩ := h3 p h
          refine ⟨j, by omega, ?_, hj3⟩
          simp only [promote, if_pos hdue]
          exact hj2
      · simp only [promote, if_pos hdue]
        omega
    · refine ⟨[], ?_, ?_, by simp, ?_⟩
      · simp [promote, hdue]
      · simp [promote, hdue]
      · simp only [promote, if_neg hdue]
        omega

/-- The promotion loop reads the clock at least once when the schedule is
non-empty. -/
theorem promote_counter_advances (clock : Clock) (d : ℚ) (i : Nat)
    (rest : List (ℚ × Nat)) (k : Nat) :
    k + 1 ≤ (promote clock ((d, i) :: rest) k).2.2 := by
  by_cases hdue : d ≤ clock k
  · have h := (promote_split clock rest (k + 1)).choose_spec.2.2.2
    simp only [promote, if_pos hdue]
    omega
  · simp [promote, hdue]

/-- When nothing is promoted the schedule is returned unchanged. -/
theorem promote_nil_rem (clock : Clock) (sched : List (ℚ × Nat)) (k : Nat)
    (h : (promote clock sched k).1 = []) : (promote clock sched k).2.1 = sched := by
  obtain ⟨pre, h1, h2, _, _⟩ := promote_split clock sched k
  rw [h] at h2
  have : pre = [] := by
    cases pre with
    | nil => rfl
    | cons a b => simp at h2
  subst this
  simpa using h1.symm

/-- When the head of the schedule is not promoted, it was not due at the
first clock read. -/
theorem promote_head_not_due (clock : Clock) (d : ℚ) (i : Nat)
    (rest : List (ℚ × Nat)) (k : Nat)
    (h : (promote clock ((d, i) :: rest) k).1 = []) : ¬ d ≤ clock k := by
  intro hdue
  simp [promote, hdue] at h

/-! ### Sub-batch accumulation lemmas -/

/-- Every batch dispatched by the sub-batch loop has at most
`max_batch_size` entries, provided the bound is at least 1, the current
sub-batch respects it, and all batches dispatched so far respect it. -/
theorem sendUpdateBatchAux_batches_le (clock : Clock) (m : Nat) (hm : 1 ≤ m)
    (pending : List Nat) :
    ∀ (st : FlushState) (sbl : Batch) (common : Option Nat) (t : ℚ) (st' : FlushState),
      sendUpdateBatchAux clock m pending st sbl common t = .ok st' →
      sbl.length ≤ m →
      (∀ b ∈ st.batches, b.length ≤ m) →
      ∀ b ∈ st'.batches, b.length ≤ m := by
  induction pending with
  | nil =>
    intro st sbl common t st' hok hsbl hacc b hb
    simp only [sendUpdateBatchAux] at hok
    cases hok
    rcases List.mem_append.mp hb with h | h
    · exact hacc _ h
    · by_cases he : sbl.isEmpty
      · rw [if_pos he] at h; cases h
      · rw [if_neg he, List.mem_singleton] at h; subst h; exact hsbl
  | cons i rest ih =>
    intro st sbl common t st' hok hsbl hacc b hb
    simp only [sendUpdateBatchAux] at hok
    split at hok
    · cases hok
    · split at hok
      · rename_i v heval hcond
        refine ih _ _ _ _ _ hok ?_ hacc b hb
        rw [List.length_append, List.length_singleton]
        omega
      · rename_i v heval hcond
        refine ih _ _ _ _ _ hok (by simpa using hm) ?_ b hb
        intro b' hb'
        rcases List.mem_append.mp hb' with h | h
        · exact hacc _ h
        · rw [List.mem_singleton] at h; subst h; exact hsbl

/-- Every batch dispatched by the sub-batch loop is non-empty, provided
`max_batch_size ≥ 1`: the current sub-batch is empty exactly while no common
fade is fixed, and in that situation the append branch is always taken. -/
theorem sendUpdateBatchAux_batches_ne (clock : Clock) (m : Nat) (hm : 1 ≤ m)
    (pending : List Nat) :
    ∀ (st : FlushState) (sbl : Batch) (common : Option Nat) (t : ℚ) (st' : FlushState),
      sendUpdateBatchAux clock m pending st sbl common t = .ok st' →
      (common = none → sbl = []) →
      (∀ c, common = some c → sbl ≠ []) →
      (∀ b ∈ st.batches, b ≠ []) →
      ∀ b ∈ st'.batches, b ≠ [] := by
  induction pending with
  | nil =>
    intro st sbl common t st' hok _ _ hacc b hb
    simp only [sendUpdateBatchAux] at hok
    cases hok
    rcases List.mem_append.mp hb with h | h
    · exact hacc _ h
    · by_cases he : sbl.isEmpty
      · rw [if_pos he] at h; cases h
      · rw [if_neg he, List.mem_singleton] at h
        subst h
        simpa [List.isEmpty_iff] using he
  | cons i rest ih =>
    intro st sbl common t st' hok hn hs hacc b hb
    simp only [sendUpdateBatchAux] at hok
    split at hok
    · cases hok
    · split at hok
      · rename_i v heval hcond
        refine ih _ _ _ _ _ hok (by simp) (fun c _ => by simp) hacc b hb
      · rename_i v heval hcond
        refine ih _ _ _ _ _ hok (by simp) (fun c _ => by simp) ?_ b hb
        intro b' hb'
        rcases List.mem_append.mp hb' with h | h
        · exact hacc _ h
        · rw [List.mem_singleton] at h
          have hsblne : sbl ≠ [] := by
            cases hc : common with
            | none =>
              intro hsbl
              refine hcond ⟨by simp [hc], ?_⟩
              rw [hsbl]
              simpa using hm
            | some c => exact hs c hc
          rw [h]
          exact hsblne

/-- Every batch dispatched by the sub-batch loop is duration-homogeneous,
and every entry of a dispatched batch records the brightness and fade
duration of one of the tick's evaluations. -/
theorem sendUpdateBatchAux_batches_hom (clock : Clock) (m : Nat)
    (pending : List Nat) :
    ∀ (st : FlushState) (sbl : Batch) (common : Option Nat) (t : ℚ) (st' : FlushState),
      sendUpdateBatchAux clock m pending st sbl common t = .ok st' →
      (∀ c, common = some c → ∀ e ∈ sbl, e.2.2 = c) →
      (common = none → sbl = []) →
      (∀ e ∈ sbl, ∃ dn tt, (e.1, e.2.1, e.2.2, dn, tt) ∈ st.trace) →
      (∀ b ∈ st.batches, ∀ e1 ∈ b, ∀ e2 ∈ b, e1.2.2 = e2.2.2) →
      (∀ b ∈ st.batches, ∀ e ∈ b, ∃ dn tt, (e.1, e.2.1, e.2.2, dn, tt) ∈ st.trace) →
      (∀ b ∈ st'.batches, ∀ e1 ∈ b, ∀ e2 ∈ b, e1.2.2 = e2.2.2)
      ∧ (∀ b ∈ st'.batches, ∀ e ∈ b, ∃ dn tt, (e.1, e.2.1, e.2.2, dn, tt) ∈ st'.trace) := by
  induction pending with
  | nil =>
    intro st sbl common t st' hok hsc hsn hjust haccH haccJ
    simp only [sendUpdateBatchAux] at hok
    cases hok
    constructor
    · intro b hb e1 he1 e2 he2
      rcases List.mem_append.mp hb with h | h
      · exact haccH _ h e1 he1 e2 he2
      · by_cases he : sbl.isEmpty
        · rw [if_pos he] at h; cases h
        · rw [if_neg he, List.mem_singleton] at h
          subst h
          cases hc : common with
          | none => rw [hsn hc] at he1; cases he1
          | some c => rw [hsc c hc e1 he1, hsc c hc e2 he2]
    · intro b hb e he
      rcases List.mem_append.mp hb with h | h
      · exact haccJ _ h e he
      · by_cases hemp : sbl.isEmpty
        · rw [if_pos hemp] at h; cases h
        · rw [if_neg hemp, List.mem_singleton] at h
          subst h
          exact hjust e he
  | cons i rest ih =>
    intro st sbl common t st' hok hsc hsn hjust haccH haccJ
    simp only [sendUpdateBatchAux] at hok
    split at hok
    · cases hok
    · split at hok
      · rename_i v heval hcond
        refine ih _ _ _ _ _ hok ?_ (by simp) ?_ haccH ?_
        · intro c hcnew e he
          cases Option.some.inj hcnew
          rcases List.mem_append.mp he with h | h
          · cases hc : common with
            | none => rw [hsn hc] at h; cases h
            | some c0 =>
              rw [hsc c0 hc e h]
              rfl
          · rw [List.mem_singleton] at h; subst h; rfl
        · intro e he
          rcases List.mem_append.mp he with h | h
          · obtain ⟨dn, tt, hm'⟩ := hjust e h
            exact ⟨dn, tt, List.mem_append_left _ hm'⟩
          · rw [List.mem_singleton] at h
            subst h
            refine ⟨v.1.2.2, t, ?_⟩
            simp only [hcond.1]
            exact List.mem_append_right _ (List.mem_singleton.mpr rfl)
        · intro b hb e he
          obtain ⟨dn, tt, hm'⟩ := haccJ b hb e he
          exact ⟨dn, tt, List.mem_append_left _ hm'⟩
      · rename_i v heval hcond
        refine ih _ _ _ _ _ hok ?_ (by simp) ?_ ?_ ?_
        · intro c hcnew e he
          cases Option.some.inj hcnew
          rw [List.mem_singleton] at he
          subst he
          rfl
        · intro e he
          rw [List.mem_singleton] at he
          subst he
          exact ⟨v.1.2.2, t, List.mem_append_right _ (List.mem_singleton.mpr rfl)⟩
        · intro b hb e1 he1 e2 he2
          rcases List.mem_append.mp hb with h | h
          · exact haccH _ h e1 he1 e2 he2
          · rw [List.mem_singleton] at h
            subst h
            cases hc : common with
            | none => rw [hsn hc] at he1; cases he1
            | some c => rw [hsc c hc e1 he1, hsc c hc e2 he2]
        · intro b hb e he
          rcases List.mem_append.mp hb with h | h
          · obtain ⟨dn, tt, hm'⟩ := haccJ b h e he
            exact ⟨dn, tt, List.mem_append_left _ hm'⟩
          · rw [List.mem_singleton] at h
            subst h
            obtain ⟨dn, tt, hm'⟩ := hjust e he
            exact ⟨dn, tt, List.mem_append_left _ hm'⟩

/-- The sub-batch loop appends to the trace exactly one event per pending
light, appends to the schedule exactly the reschedule entries of the
incomplete events, and the appended events cover every pending light. -/
theorem sendUpdateBatchAux_trace_sched (clock : Clock) (m : Nat)
    (pending : List Nat) :
    ∀ (st : FlushState) (sbl : Batch) (common : Option Nat) (t : ℚ) (st' : FlushState),
      sendUpdateBatchAux clock m pending st sbl common t = .ok st' →
      ∃ Δ, st'.trace = st.trace ++ Δ
        ∧ st'.schedule = st.schedule ++ Δ.filterMap schedOf
        ∧ ∀ i ∈ pending, ∃ e ∈ Δ, e.1 = i := by
  induction pending with
  | nil =>
    intro st sbl common t st' hok
    simp only [sendUpdateBatchAux] at hok
    cases hok
    exact ⟨[], by simp⟩
  | cons i rest ih =>
    intro st sbl common t st' hok
    simp only [sendUpdateBatchAux] at hok
    split at hok
    · cases hok
    · split at hok
      all_goals {
        rename_i v heval hcond
        obtain ⟨Δ', h1, h2, h3⟩ := ih _ _ _ _ _ hok
        refine ⟨(i, v.1.1, v.1.2.1, v.1.2.2, t) :: Δ', ?_, ?_, ?_⟩
        · rw [h1]
          simp
        · rw [h2]
          simp only [List.filterMap_cons, schedOf]
          by_cases hv : v.1.2.2 = true
          · simp [hv]
          · simp only [hv]
            simp [Bool.eq_false_iff.mpr hv]
        · intro i' hi'
          rcases List.mem_cons.mp hi' with h | h
          · subst h
            exact ⟨_, List.mem_cons_self _ _, rfl⟩
          · obtain ⟨e, he, hei⟩ := h3 i' h
            exact ⟨e, List.mem_cons_of_mem _ he, hei⟩
      }

/-- The clock-read counter never decreases across the sub-batch loop. -/
theorem sendUpdateBatchAux_counter_le (clock : Clock) (m : Nat)
    (pending : List Nat) :
    ∀ (st : FlushState) (sbl : Batch) (common : Option Nat) (t : ℚ) (st' : FlushState),
      sendUpdateBatchAux clock m pending st sbl common t = .ok st' →
      st.counter ≤ st'.counter := by
  induction pending with
  | nil =>
    intro st sbl common t st' hok
    simp only [sendUpdateBatchAux] at hok
    cases hok
    exact le_refl _
  | cons i rest ih =>
    intro st sbl common t st' hok
    simp only [sendUpdateBatchAux] at hok
    split at hok
    · cases hok
    · split at hok
      · have h2 := ih _ _ _ _ _ hok
        simp only at h2
        omega
      · have h2 := ih _ _ _ _ _ hok
        simp only at h2
        omega

/-- The sub-batch loop never changes any light's stored callback. -/
theorem sendUpdateBatchAux_callback_eq (clock : Clock) (m : Nat)
    (pending : List Nat) :
    ∀ (st : FlushState) (sbl : Batch) (common : Option Nat) (t : ℚ) (st' : FlushState),
      sendUpdateBatchAux clock m pending st sbl common t = .ok st' →
      ∀ j, (st'.lights j).callback = (st.lights j).callback := by
  induction pending with
  | nil =>
    intro st sbl common t st' hok j
    simp only [sendUpdateBatchAux] at hok
    cases hok
    rfl
  | cons i rest ih =>
    intro st sbl common t st' hok j
    simp only [sendUpdateBatchAux] at hok
    split at hok
    · cases hok
    · split at hok
      all_goals {
        rename_i v heval hcond
        rw [ih _ _ _ _ _ hok j]
        simp only [LightMap.set]
        by_cases hji : j = i
        · subst hji
          rw [if_pos rfl]
          exact eval_callback_eq _ _ _ heval
        · rw [if_neg hji]
      }

/-- If every light holds a callback, the sub-batch loop cannot fail. -/
theorem sendUpdateBatchAux_total (clock : Clock) (m : Nat)
    (pending : List Nat) :
    ∀ (st : FlushState) (sbl : Batch) (common : Option Nat) (t : ℚ),
      callbacksTotal st.lights →
      ∃ st', sendUpdateBatchAux clock m pending st sbl common t = .ok st' := by
  induction pending with
  | nil =>
    intro st sbl common t _
    exact ⟨_, rfl⟩
  | cons i rest ih =>
    intro st sbl common t hcb
    obtain ⟨v, heval⟩ := eval_ok_of_callback_isSome (st.lights i) t (hcb i)
    have hcb' : ∀ (l' : PlatformBatchLight), l'.callback = (st.lights i).callback →
        callbacksTotal (st.lights.set i l') := by
      intro l' hl' j
      simp only [LightMap.set]
      by_cases hji : j = i
      · rw [if_pos hji, hl']
        exact hcb i
      · rw [if_neg hji]
        exact hcb j
    by_cases hcond : common.getD v.1.2.1 = v.1.2.1 ∧ sbl.length < m
    · obtain ⟨st', hst'⟩ := ih
        { st with
          lights := st.lights.set i v.2.1
          schedule := if v.1.2.2 then st.schedule
                      else st.schedule ++ [(t + (v.1.2.1 : ℚ) / 1000, i)]
          trace := st.trace ++ [(i, v.1.1, v.1.2.1, v.1.2.2, t)] }
        (sbl ++ [(i, v.1.1, common.getD v.1.2.1)]) (some (common.getD v.1.2.1)) t
        (hcb' _ (eval_callback_eq _ _ _ heval))
      refine ⟨st', ?_⟩
      simp only [sendUpdateBatchAux, heval]
      rw [if_pos hcond]
      exact hst'
    · obtain ⟨st', hst'⟩ := ih
        { lights := st.lights.set i v.2.1
          schedule := if v.1.2.2 then st.schedule
                      else st.schedule ++ [(t + (v.1.2.1 : ℚ) / 1000, i)]
          batches := st.batches ++ [sbl]
          trace := st.trace ++ [(i, v.1.1, v.1.2.1, v.1.2.2, t)]
          counter := st.counter + 1 }
        [(i, v.1.1, v.1.2.1)] (some v.1.2.1) (clock st.counter)
        (hcb' _ (eval_callback_eq _ _ _ heval))
      refine ⟨st', ?_⟩
      simp only [sendUpdateBatchAux, heval]
      rw [if_neg hcond]
      exact hst'

/-- With a monotone clock, every event the sub-batch loop appends to the
trace is evaluated at a time no earlier than the clock read `j`, provided
the loop starts at a read index past `j` with a current time past
`clock j`. -/
theorem sendUpdateBatchAux_trace_time (clock : Clock) (m : Nat)
    (hmono : ∀ a b, a ≤ b → clock a ≤ clock b) (j : Nat)
    (pending : List Nat) :
    ∀ (st : FlushState) (sbl : Batch) (common : Option Nat) (t : ℚ) (st' : FlushState),
      sendUpdateBatchAux clock m pending st sbl common t = .ok st' →
      j ≤ st.counter → clock j ≤ t →
      ∀ e ∈ st'.trace, e ∈ st.trace ∨ clock j ≤ e.2.2.2.2 := by
  induction pending with
  | nil =>
    intro st sbl common t st' hok _ _ e he
    simp only [sendUpdateBatchAux] at hok
    cases hok
    exact Or.inl he
  | cons i rest ih =>
    intro st sbl common t st' hok hjc hjt e he
    simp only [sendUpdateBatchAux] at hok
    split at hok
    · cases hok
    · split at hok
      · rename_i v heval hcond
        rcases ih _ _ _ _ _ hok hjc hjt e he with h | h
        · rcases List.mem_append.mp h with h' | h'
          · exact Or.inl h'
          · rw [List.mem_singleton] at h'
            subst h'
            exact Or.inr hjt
        · exact Or.inr h
      · rename_i v heval hcond
        have hjc' : j ≤ st.counter + 1 := Nat.le_succ_of_le hjc
        have hjt' : clock j ≤ clock st.counter := hmono _ _ hjc
        rcases ih _ _ _ _ _ hok hjc' hjt' e he with h | h
        · rcases List.mem_append.mp h with h' | h'
          · exact Or.inl h'
          · rw [List.mem_singleton] at h'
            subst h'
            exact Or.inr hjt
        · exact Or.inr h

/-! ### Run-detection loop lemmas -/

/-- Batch size bound, lifted to the run-detection loop. -/
theorem runLoopAux_batches_le (clock : Clock) (m : Nat) (hm : 1 ≤ m)
    (seqf : Nat → Nat → Bool) (pending : List Nat) :
    ∀ (last : Option Nat) (seq : List Nat) (st : FlushState) (st' : FlushState),
      runLoopAux clock m seqf pending last seq st = .ok st' →
      (∀ b ∈ st.batches, b.length ≤ m) →
      ∀ b ∈ st'.batches, b.length ≤ m := by
  induction pending with
  | nil =>
    intro last seq st st' hok hacc
    simp only [runLoopAux] at hok
    split at hok
    · cases hok; exact hacc
    · exact sendUpdateBatchAux_batches_le clock m hm seq _ _ _ _ _ hok (by simp) hacc
  | cons i rest ih =>
    intro last seq st st' hok hacc
    simp only [runLoopAux] at hok
    split at hok
    · exact ih _ _ _ _ hok hacc
    · split at hok
      · exact ih _ _ _ _ hok hacc
      · split at hok
        · exact ih _ _ _ _ hok hacc
        · split at hok
          · cases hok
          · rename_i st0 hsend
            exact ih _ _ _ _ hok
              (sendUpdateBatchAux_batches_le clock m hm seq _ _ _ _ _ hsend (by simp) hacc)

/-- Nonempty batches, lifted to the run-detection loop. -/
theorem runLoopAux_batches_ne (clock : Clock) (m : Nat) (hm : 1 ≤ m)
    (seqf : Nat → Nat → Bool) (pending : List Nat) :
    ∀ (last : Option Nat) (seq : List Nat) (st : FlushState) (st' : FlushState),
      runLoopAux clock m seqf pending last seq st = .ok st' →
      (∀ b ∈ st.batches, b ≠ []) →
      ∀ b ∈ st'.batches, b ≠ [] := by
  induction pending with
  | nil =>
    intro last seq st st' hok hacc
    simp only [runLoopAux] at hok
    split at hok
    · cases hok; exact hacc
    · exact sendUpdateBatchAux_batches_ne clock m hm seq _ _ _ _ _ hok
        (fun _ => rfl) (fun c hc => by cases hc) hacc
  | cons i rest ih =>
    intro last seq st st' hok hacc
    simp only [runLoopAux] at hok
    split at hok
    · exact ih _ _ _ _ hok hacc
    · split at hok
      · exact ih _ _ _ _ hok hacc
      · split at hok
        · exact ih _ _ _ _ hok hacc
        · split at hok
          · cases hok
          · rename_i st0 hsend
            exact ih _ _ _ _ hok
              (sendUpdateBatchAux_batches_ne clock m hm seq _ _ _ _ _ hsend
                (fun _ => rfl) (fun c hc => by cases hc) hacc)

/-- Duration homogeneity and trace justification, lifted to the
run-detection loop. -/
theorem runLoopAux_batches_hom (clock : Clock) (m : Nat)
    (seqf : Nat → Nat → Bool) (pending : List Nat) :
    ∀ (last : Option Nat) (seq : List Nat) (st : FlushState) (st' : FlushState),
      runLoopAux clock m seqf pending last seq st = .ok st' →
      (∀ b ∈ st.batches, ∀ e1 ∈ b, ∀ e2 ∈ b, e1.2.2 = e2.2.2) →
      (∀ b ∈ st.batches, ∀ e ∈ b, ∃ dn tt, (e.1, e.2.1, e.2.2, dn, tt) ∈ st.trace) →
      (∀ b ∈ st'.batches, ∀ e1 ∈ b, ∀ e2 ∈ b, e1.2.2 = e2.2.2)
      ∧ (∀ b ∈ st'.batches, ∀ e ∈ b, ∃ dn tt, (e.1, e.2.1, e.2.2, dn, tt) ∈ st'.trace) := by
  induction pending with
  | nil =>
    intro last seq st st' hok haccH haccJ
    simp only [runLoopAux] at hok
    split at hok
    · cases hok; exact ⟨haccH, haccJ⟩
    · exact sendUpdateBatchAux_batches_hom clock m seq _ _ _ _ _ hok
        (fun c hc => by cases hc) (fun _ => rfl) (fun e he => by cases he) haccH haccJ
  | cons i rest ih =>
    intro last seq st st' hok haccH haccJ
    simp only [runLoopAux] at hok
    split at hok
    · exact ih _ _ _ _ hok haccH haccJ
    · split at hok
      · exact ih _ _ _ _ hok haccH haccJ
      · split at hok
        · exact ih _ _ _ _ hok haccH haccJ
        · split at hok
          · cases hok
          · rename_i st0 hsend
            have h0 := sendUpdateBatchAux_batches_hom clock m seq _ _ _ _ _ hsend
              (fun c hc => by cases hc) (fun _ => rfl) (fun e he => by cases he) haccH haccJ
            exact ih _ _ _ _ hok h0.1 h0.2

/-- Trace and schedule bookkeeping, lifted to the run-detection loop: the
trace grows by a block Δ of events, the schedule grows by exactly the
reschedule entries of Δ, and Δ covers every pending light as well as every
light parked in the current run (assuming the last-processed marker always
points into the current run, as the loop maintains). -/
theorem runLoopAux_trace_sched (clock : Clock) (m : Nat)
    (seqf : Nat → Nat → Bool) (pending : List Nat) :
    ∀ (last : Option Nat) (seq : List Nat) (st : FlushState) (st' : FlushState),
      runLoopAux clock m seqf pending last seq st = .ok st' →
      (∀ l, last = some l → l ∈ seq) →
      ∃ Δ, st'.trace = st.trace ++ Δ
        ∧ st'.schedule = st.schedule ++ Δ.filterMap schedOf
        ∧ ∀ i, (i ∈ pending ∨ i ∈ seq) → ∃ e ∈ Δ, e.1 = i := by
  induction pending with
  | nil =>
    intro last seq st st' hok hlast
    simp only [runLoopAux] at hok
    split at hok
    · rename_i hseq
      cases hok
      refine ⟨[], by simp, by simp, ?_⟩
      intro i hi
      rcases hi with h | h
      · cases h
      · rw [List.isEmpty_iff.mp hseq] at h; cases h
    · obtain ⟨Δ, h1, h2, h3⟩ := sendUpdateBatchAux_trace_sched clock m seq _ _ _ _ _ hok
      refine ⟨Δ, by simpa using h1, by simpa using h2, ?_⟩
      intro i hi
      rcases hi with h | h
      · cases h
      · exact h3 i h
  | cons i rest ih =>
    intro last seq st st' hok hlast
    simp only [runLoopAux] at hok
    split at hok
    · rename_i hli
      obtain ⟨Δ, h1, h2, h3⟩ := ih _ _ _ _ hok hlast
      refine ⟨Δ, h1, h2, ?_⟩
      intro i' hi'
      rcases hi' with h | h
      · rcases List.mem_cons.mp h with h' | h'
        · subst h'
          exact h3 i' (Or.inr (hlast i' hli))
        · exact h3 i' (Or.inl h')
      · exact h3 i' (Or.inr h)
    · split at hok
      · rename_i hseq
        obtain ⟨Δ, h1, h2, h3⟩ := ih _ _ _ _ hok (fun l hl => by
          cases Option.some.inj hl.symm
          exact List.mem_singleton.mpr rfl)
        refine ⟨Δ, h1, h2, ?_⟩
        intro i' hi'
        rcases hi' with h | h
        · rcases List.mem_cons.mp h with h' | h'
          · subst h'
            exact h3 i' (Or.inr (List.mem_singleton.mpr rfl))
          · exact h3 i' (Or.inl h')
        · rw [List.isEmpty_iff.mp hseq] at h; cases h
      · split at hok
        · obtain ⟨Δ, h1, h2, h3⟩ := ih _ _ _ _ hok (fun l hl => by
            cases Option.some.inj hl.symm
            exact List.mem_append_right _ (List.mem_singleton.mpr rfl))
          refine ⟨Δ, h1, h2, ?_⟩
          intro i' hi'
          rcases hi' with h | h
          · rcases List.mem_cons.mp h with h' | h'
            · subst h'
              exact h3 i' (Or.inr (List.mem_append_right _ (List.mem_singleton.mpr rfl)))
            · exact h3 i' (Or.inl h')
          · exact h3 i' (Or.inr (List.mem_append_left _ h))
        · split at hok
          · cases hok
          · rename_i st0 hsend
            obtain ⟨Δ0, g1, g2, g3⟩ := sendUpdateBatchAux_trace_sched clock m seq _ _ _ _ _ hsend
            obtain ⟨Δ1, h1, h2, h3⟩ := ih _ _ _ _ hok (fun l hl => by
              cases Option.some.inj hl.symm
              exact List.mem_singleton.mpr rfl)
            refine ⟨Δ0 ++ Δ1, ?_, ?_, ?_⟩
            · rw [h1, g1]
              simp
            · rw [h2, g2]
              simp [List.filterMap_append]
            · intro i' hi'
              rcases hi' with h | h
              · rcases List.mem_cons.mp h with h' | h'
                · subst h'
                  obtain ⟨e, he, hei⟩ := h3 i' (Or.inr (List.mem_singleton.mpr rfl))
                  exact ⟨e, List.mem_append_right _ he, hei⟩
                · obtain ⟨e, he, hei⟩ := h3 i' (Or.inl h')
                  exact ⟨e, List.mem_append_right _ he, hei⟩
              · obtain ⟨e, he, hei⟩ := g3 i' h
                exact ⟨e, List.mem_append_left _ he, hei⟩

/-- Counter monotonicity, lifted to the run-detection loop. -/
theorem runLoopAux_counter_le (clock : Clock) (m : Nat)
    (seqf : Nat → Nat → Bool) (pending : List Nat) :
    ∀ (last : Option Nat) (seq : List Nat) (st : FlushState) (st' : FlushState),
      runLoopAux clock m seqf pending last seq st = .ok st' →
      st.counter ≤ st'.counter := by
  induction pending with
  | nil =>
    intro last seq st st' hok
    simp only [runLoopAux] at hok
    split at hok
    · cases hok; exact le_refl _
    · have h2 := sendUpdateBatchAux_counter_le clock m seq _ _ _ _ _ hok
      simp only at h2
      omega
  | cons i rest ih =>
    intro last seq st st' hok
    simp only [runLoopAux] at hok
    split at hok
    · exact ih _ _ _ _ hok
    · split at hok
      · exact ih _ _ _ _ hok
      · split at hok
        · exact ih _ _ _ _ hok
        · split at hok
          · cases hok
          · rename_i st0 hsend
            have h1 := sendUpdateBatchAux_counter_le clock m seq _ _ _ _ _ hsend
            have h2 := ih _ _ _ _ hok
            simp only at h1
            omega

/-- Callback preservation, lifted to the run-detection loop. -/
theorem runLoopAux_callback_eq (clock : Clock) (m : Nat)
    (seqf : Nat → Nat → Bool) (pending : List Nat) :
    ∀ (last : Option Nat) (seq : List Nat) (st : FlushState) (st' : FlushState),
      runLoopAux clock m seqf pending last seq st = .ok st' →
      ∀ j, (st'.lights j).callback = (st.lights j).callback := by
  induction pending with
  | nil =>
    intro last seq st st' hok j
    simp only [runLoopAux] at hok
    split at hok
    · cases hok; rfl
    · exact sendUpdateBatchAux_callback_eq clock m seq _ _ _ _ _ hok j
  | cons i rest ih =>
    intro last seq st st' hok j
    simp only [runLoopAux] at hok
    split at hok
    · exact ih _ _ _ _ hok j
    · split at hok
      · exact ih _ _ _ _ hok j
      · split at hok
        · exact ih _ _ _ _ hok j
        · split at hok
          · cases hok
          · rename_i st0 hsend
            rw [ih _ _ _ _ hok j]
            exact sendUpdateBatchAux_callback_eq clock m seq _ _ _ _ _ hsend j

/-- Totality of the run-detection loop when every light holds a callback. -/
theorem runLoopAux_total (clock : Clock) (m : Nat)
    (seqf : Nat → Nat → Bool) (pending : List Nat) :
    ∀ (last : Option Nat) (seq : List Nat) (st : FlushState),
      callbacksTotal st.lights →
      ∃ st', runLoopAux clock m seqf pending last seq st = .ok st' := by
  induction pending with
  | nil =>
    intro last seq st hcb
    simp only [runLoopAux]
    split
    · exact ⟨st, rfl⟩
    · exact sendUpdateBatchAux_total clock m seq _ _ _ _ hcb
  | cons i rest ih =>
    intro last seq st hcb
    simp only [runLoopAux]
    split
    · exact ih _ _ _ hcb
    · split
      · exact ih _ _ _ hcb
      · split
        · exact ih _ _ _ hcb
        · obtain ⟨st0, hsend⟩ := sendUpdateBatchAux_total clock m seq
            { st with counter := st.counter + 1 } [] none (clock st.counter) hcb
          have hcb0 : callbacksTotal st0.lights := by
            intro j
            rw [sendUpdateBatchAux_callback_eq clock m seq _ _ _ _ _ hsend j]
            exact hcb j
          obtain ⟨st', hst'⟩ := ih (some i) [i] st0 hcb0
          refine ⟨st', ?_⟩
          rw [show send_update_batch clock m seq st = sendUpdateBatchAux clock m seq
            { st with counter := st.counter + 1 } [] none (clock st.counter) from rfl, hsend]
          exact hst'

/-- Trace-time lower bound, lifted to the run-detection loop. -/
theorem runLoopAux_trace_time (clock : Clock) (m : Nat)
    (hmono : ∀ a b, a ≤ b → clock a ≤ clock b) (j : Nat)
    (seqf : Nat → Nat → Bool) (pending : List Nat) :
    ∀ (last : Option Nat) (seq : List Nat) (st : FlushState) (st' : FlushState),
      runLoopAux clock m seqf pending last seq st = .ok st' →
      j ≤ st.counter →
      ∀ e ∈ st'.trace, e ∈ st.trace ∨ clock j ≤ e.2.2.2.2 := by
  induction pending with
  | nil =>
    intro last seq st st' hok hjc e he
    simp only [runLoopAux] at hok
    split at hok
    · cases hok; exact Or.inl he
    · exact sendUpdateBatchAux_trace_time clock m hmono j seq _ _ _ _ _ hok
        (Nat.le_succ_of_le hjc) (hmono _ _ hjc) e he
  | cons i rest ih =>
    intro last seq st st' hok hjc e he
    simp only [runLoopAux] at hok
    split at hok
    · exact ih _ _ _ _ hok hjc e he
    · split at hok
      · exact ih _ _ _ _ hok hjc e he
      · split at hok
        · exact ih _ _ _ _ hok hjc e he
        · split at hok
          · cases hok
          · rename_i st0 hsend
            have hc0 := sendUpdateBatchAux_counter_le clock m seq _ _ _ _ _ hsend
            simp only at hc0
            rcases ih _ _ _ _ hok (by omega) e he with h | h
            · exact sendUpdateBatchAux_trace_time clock m hmono j seq _ _ _ _ _ hsend
                (Nat.le_succ_of_le hjc) (hmono _ _ hjc) e h
            · exact Or.inr h

/-! ### Tick-level lemmas -/

/-- Unfolding a successful tick into its run-detection loop call. -/
theorem tick_elim (clock : Clock) (sys : PlatformBatchLightSystem) (lm : LightMap)
    (k : Nat) (r : TickResult) (hok : tick clock sys lm k = .ok r) :
    ∃ st, runLoopAux clock sys.max_batch_size sys.is_sequential_function
        (sys.dirty_lights ++ (promote clock sys.dirty_schedule k).1) none []
        { lights := lm, schedule := (promote clock sys.dirty_schedule k).2.1,
          batches := [], trace := [], counter := (promote clock sys.dirty_schedule k).2.2 }
        = .ok st
      ∧ r.sys = { sys with dirty_lights := [], dirty_schedule := st.schedule }
      ∧ r.lights = st.lights ∧ r.batches = st.batches ∧ r.trace = st.trace
      ∧ r.counter = st.counter := by
  simp only [tick] at hok
  split at hok
  · cases hok
  · rename_i st hrun
    cases hok
    exact ⟨st, hrun, rfl, rfl, rfl, rfl, rfl⟩

/-- Under total callbacks a tick always succeeds, the resulting lights still
all hold callbacks, and the counter does not decrease. -/
theorem tick_total (clock : Clock) (sys : PlatformBatchLightSystem) (lm : LightMap)
    (k : Nat) (hcb : callbacksTotal lm) :
    ∃ r, tick clock sys lm k = .ok r ∧ callbacksTotal r.lights ∧ k ≤ r.counter := by
  obtain ⟨st, hrun⟩ := runLoopAux_total clock sys.max_batch_size
    sys.is_sequential_function
    (sys.dirty_lights ++ (promote clock sys.dirty_schedule k).1) none []
    { lights := lm, schedule := (promote clock sys.dirty_schedule k).2.1,
      batches := [], trace := [], counter := (promote clock sys.dirty_schedule k).2.2 }
    hcb
  refine ⟨{ sys := { sys with dirty_lights := [], dirty_schedule := st.schedule },
            lights := st.lights, batches := st.batches, trace := st.trace,
            counter := st.counter }, ?_, ?_, ?_⟩
  · simp only [tick]
    rw [hrun]
  · intro j
    have h := runLoopAux_callback_eq _ _ _ _ _ _ _ _ hrun j
    simp only at h
    simp only [h]
    exact hcb j
  · have h1 := runLoopAux_counter_le _ _ _ _ _ _ _ _ hrun
    have h2 := (promote_split clock sys.dirty_schedule k).choose_spec.2.2.2
    simp only at h1
    simp only
    omega

/-- Every light that is dirty at the start of a successful tick — whether
carried in `dirty_lights` or promoted from the schedule — is evaluated
during that tick. -/
theorem tick_dirty_evaluated (clock : Clock) (sys : PlatformBatchLightSystem)
    (lm : LightMap) (k : Nat) (r : TickResult) (hok : tick clock sys lm k = .ok r) :
    ∀ i ∈ sys.dirty_lights ++ (promote clock sys.dirty_schedule k).1,
      ∃ e ∈ r.trace, e.1 = i := by
  obtain ⟨st, hrun, _, _, _, htr, _⟩ := tick_elim clock sys lm k r hok
  obtain ⟨Δ, h1, _, h3⟩ := runLoopAux_trace_sched clock sys.max_batch_size
    sys.is_sequential_function _ _ _ _ _ hrun (fun l hl => by cases hl)
  simp only [List.nil_append] at h1
  intro i hi
  obtain ⟨e, he, hei⟩ := h3 i (Or.inl hi)
  rw [htr, h1]
  exact ⟨e, he, hei⟩

/-- After a successful tick, the reschedule queue consists of the entries
promotion left behind, followed by exactly one entry
`(t + fade_ms / 1000, light)` per incomplete evaluation of the tick, in
trace order; complete evaluations contribute nothing. -/
theorem tick_schedule_eq (clock : Clock) (sys : PlatformBatchLightSystem)
    (lm : LightMap) (k : Nat) (r : TickResult) (hok : tick clock sys lm k = .ok r) :
    r.sys.dirty_schedule
      = (promote clock sys.dirty_schedule k).2.1 ++ r.trace.filterMap schedOf := by
  obtain ⟨st, hrun, hsys, _, _, htr, _⟩ := tick_elim clock sys lm k r hok
  obtain ⟨Δ, h1, h2, _⟩ := runLoopAux_trace_sched clock sys.max_batch_size
    sys.is_sequential_function _ _ _ _ _ hrun (fun l hl => by cases hl)
  simp only [List.nil_append] at h1 h2
  rw [hsys]
  simp only
  rw [h2, htr, h1]

/-- With a monotone clock, every evaluation of a successful tick happens at
a time no earlier than any clock read `j` at or before the end of the
promotion loop. -/
theorem tick_trace_time (clock : Clock)
    (hmono : ∀ a b, a ≤ b → clock a ≤ clock b)
    (sys : PlatformBatchLightSystem) (lm : LightMap) (k : Nat) (r : TickResult)
    (hok : tick clock sys lm k = .ok r) (j : Nat)
    (hj : j ≤ (promote clock sys.dirty_schedule k).2.2) :
    ∀ e ∈ r.trace, clock j ≤ e.2.2.2.2 := by
  obtain ⟨st, hrun, _, _, _, htr, _⟩ := tick_elim clock sys lm k r hok
  intro e he
  rw [htr] at he
  rcases runLoopAux_trace_time clock sys.max_batch_size hmono j
    sys.is_sequential_function _ _ _ _ _ hrun hj e he with h | h
  · cases h
  · exact h

/-- The tick's final read counter is at least the promotion loop's. -/
theorem tick_counter_promote (clock : Clock) (sys : PlatformBatchLightSystem)
    (lm : LightMap) (k : Nat) (r : TickResult) (hok : tick clock sys lm k = .ok r) :
    (promote clock sys.dirty_schedule k).2.2 ≤ r.counter := by
  obtain ⟨st, hrun, _, _, _, _, hk⟩ := tick_elim clock sys lm k r hok
  have h := runLoopAux_counter_le clock sys.max_batch_size
    sys.is_sequential_function _ _ _ _ _ hrun
  simp only at h
  omega

/-- A schedule entry promoted at a successful tick (its index lies below the
number of promoted entries) is evaluated during that tick, at a time no
earlier than its due time, given a monotone clock. -/
theorem tick_promoted_eval (clock : Clock)
    (hmono : ∀ a b, a ≤ b → clock a ≤ clock b)
    (sys : PlatformBatchLightSystem) (lm : LightMap) (k : Nat) (r : TickResult)
    (hok : tick clock sys lm k = .ok r) (q : Nat) (d : ℚ) (i : Nat)
    (hget : sys.dirty_schedule.get? q = some (d, i))
    (hq : q < (promote clock sys.dirty_schedule k).1.length) :
    ∃ e ∈ r.trace, e.1 = i ∧ d ≤ e.2.2.2.2 := by
  obtain ⟨pre, hsplit, hmap, hdue, hk⟩ := promote_split clock sys.dirty_schedule k
  have hlen : (promote clock sys.dirty_schedule k).1.length = pre.length := by
    rw [hmap, List.length_map]
  have hqpre : q < pre.length := by omega
  have hpre : pre.get? q = some (d, i) := by
    rw [hsplit, List.get?_append hqpre] at hget
    exact hget
  have hmem : (d, i) ∈ pre := List.get?_mem hpre
  obtain ⟨j, hj1, hj2, hj3⟩ := hdue _ hmem
  have himoved : i ∈ (promote clock sys.dirty_schedule k).1 := by
    rw [hmap]
    exact List.mem_map_of_mem Prod.snd hmem
  obtain ⟨e, he, hei⟩ := tick_dirty_evaluated clock sys lm k r hok i
    (List.mem_append_right _ himoved)
  have htime := tick_trace_time clock hmono sys lm k r hok j (le_of_lt hj2) e he
  exact ⟨e, he, hei, le_trans hj3 htime⟩

/-- A schedule entry not promoted at a successful tick survives into the
next schedule, its index decreased by the number of promoted entries. -/
theorem tick_schedule_shift (clock : Clock) (sys : PlatformBatchLightSystem)
    (lm : LightMap) (k : Nat) (r : TickResult) (hok : tick clock sys lm k = .ok r)
    (q : Nat) (d : ℚ) (i : Nat)
    (hget : sys.dirty_schedule.get? q = some (d, i))
    (hq : (promote clock sys.dirty_schedule k).1.length ≤ q) :
    r.sys.dirty_schedule.get? (q - (promote clock sys.dirty_schedule k).1.length)
      = some (d, i) := by
  obtain ⟨pre, hsplit, hmap, _, _⟩ := promote_split clock sys.dirty_schedule k
  have hlen : (promote clock sys.dirty_schedule k).1.length = pre.length := by
    rw [hmap, List.length_map]
  have hql : q < sys.dirty_schedule.length := by
    by_contra hc
    rw [List.get?_eq_none.mpr (by omega)] at hget
    cases hget
  have hrem : (promote clock sys.dirty_schedule k).2.1.get? (q - pre.length)
      = some (d, i) := by
    have := hget
    rw [hsplit, List.get?_append_right (by omega)] at this
    exact this
  have hremlen : q - pre.length < (promote clock sys.dirty_schedule k).2.1.length := by
    have hlength := congrArg List.length hsplit
    rw [List.length_append] at hlength
    omega
  rw [tick_schedule_eq clock sys lm k r hok, hlen,
    List.get?_append hremlen]
  exact hrem

/-- Extending a run of ticks by a successful prefix. -/
theorem runTicks_add (clock : Clock) (a : Nat) :
    ∀ (b : Nat) (sys : PlatformBatchLightSystem) (lm : LightMap) (k : Nat)
      (s : PlatformBatchLightSystem) (l : LightMap) (kk : Nat),
      runTicks clock a sys lm k = .ok (s, l, kk) →
      runTicks clock (a + b) sys lm k = runTicks clock b s l kk := by
  induction a with
  | zero =>
    intro b sys lm k s l kk h
    simp only [runTicks] at h
    cases h
    rw [Nat.zero_add]
  | succ a ih =>
    intro b sys lm k s l kk h
    simp only [runTicks] at h
    split at h
    · cases h
    · rename_i r htick
      have hsum : a + 1 + b = (a + b) + 1 := by omega
      rw [hsum]
      simp only [runTicks, htick]
      exact ih b _ _ _ _ _ _ h

/-- One tick of a run. -/
theorem runTicks_one (clock : Clock) (sys : PlatformBatchLightSystem)
    (lm : LightMap) (k : Nat) (r : TickResult)
    (htick : tick clock sys lm k = .ok r) :
    runTicks clock 1 sys lm k = .ok (r.sys, r.lights, r.counter) := by
  have h1 : (1 : Nat) = 0 + 1 := rfl
  rw [h1]
  simp only [runTicks, htick]

/-- Core liveness step: starting anywhere with total callbacks, a schedule
entry at index `q` whose current queue head is due before every clock read
from `k + c` on is either evaluated after its due time at some reachable
tick, or reappears at a strictly smaller index in a reachable state. -/
theorem live_aux (clock : Clock)
    (hmono : ∀ a b, a ≤ b → clock a ≤ clock b) (c : Nat) :
    ∀ (sys : PlatformBatchLightSystem) (lm : LightMap) (k q : Nat) (d : ℚ) (i : Nat)
      (d0 : ℚ) (i0 : Nat),
      callbacksTotal lm →
      sys.dirty_schedule.get? q = some (d, i) →
      sys.dirty_schedule.get? 0 = some (d0, i0) →
      (∀ j, k + c ≤ j → d0 < clock j) →
      evaluatedAfterDue clock sys lm k d i
      ∨ ∃ n sys' lm' k' q', runTicks clock n sys lm k = .ok (sys', lm', k')
          ∧ callbacksTotal lm' ∧ q' < q
          ∧ sys'.dirty_schedule.get? q' = some (d, i) := by
  induction c with
  | zero =>
    intro sys lm k q d i d0 i0 hcb hget h0 hK
    obtain ⟨r, htick, hcb', hk'⟩ := tick_total clock sys lm k hcb
    by_cases hq : q < (promote clock sys.dirty_schedule k).1.length
    · left
      obtain ⟨e, he, hei, hed⟩ :=
        tick_promoted_eval clock hmono sys lm k r htick q d i hget hq
      exact ⟨0, sys, lm, k, r, rfl, htick, e, he, hei, hed⟩
    · by_cases hlen : (promote clock sys.dirty_schedule k).1.length = 0
      · exfalso
        have hmoved : (promote clock sys.dirty_schedule k).1 = [] :=
          List.length_eq_zero.mp hlen
        cases hs : sys.dirty_schedule with
        | nil =>
          rw [hs] at h0
          cases h0
        | cons p rest =>
          obtain ⟨dp, ip⟩ := p
          rw [hs] at h0 hmoved
          have hpd : (dp, ip) = ((d0, i0) : ℚ × Nat) := Option.some.inj h0
          have hnd := promote_head_not_due clock dp ip rest k hmoved
          injection hpd with hd hi
          rw [hd] at hnd
          exact hnd (le_of_lt (hK k (by omega)))
      · right
        refine ⟨1, r.sys, r.lights, r.counter,
          q - (promote clock sys.dirty_schedule k).1.length,
          runTicks_one clock sys lm k r htick, hcb', by omega, ?_⟩
        exact tick_schedule_shift clock sys lm k r htick q d i hget (by omega)
  | succ c ih =>
    intro sys lm k q d i d0 i0 hcb hget h0 hK
    obtain ⟨r, htick, hcb', hk'⟩ := tick_total clock sys lm k hcb
    by_cases hq : q < (promote clock sys.dirty_schedule k).1.length
    · left
      obtain ⟨e, he, hei, hed⟩ :=
        tick_promoted_eval clock hmono sys lm k r htick q d i hget hq
      exact ⟨0, sys, lm, k, r, rfl, htick, e, he, hei, hed⟩
    · by_cases hlen : (promote clock sys.dirty_schedule k).1.length = 0
      · -- nothing promoted: the whole schedule survives; recurse one tick later
        have hmoved : (promote clock sys.dirty_schedule k).1 = [] :=
          List.length_eq_zero.mp hlen
        have hql : q < sys.dirty_schedule.length := by
          by_contra hc
          rw [List.get?_eq_none.mpr (by omega)] at hget
          cases hget
        have hrsched : r.sys.dirty_schedule
            = sys.dirty_schedule ++ r.trace.filterMap schedOf := by
          rw [tick_schedule_eq clock sys lm k r htick, promote_nil_rem clock _ k hmoved]
        have hget' : r.sys.dirty_schedule.get? q = some (d, i) := by
          rw [hrsched, List.get?_append hql]
          exact hget
        have h0' : r.sys.dirty_schedule.get? 0 = some (d0, i0) := by
          rw [hrsched, List.get?_append (by omega)]
          exact h0
        have hkc : k + 1 ≤ r.counter := by
          have h1 := tick_counter_promote clock sys lm k r htick
          have h2 : k + 1 ≤ (promote clock sys.dirty_schedule k).2.2 := by
            cases hs : sys.dirty_schedule with
            | nil =>
              rw [hs] at hql
              simp at hql
            | cons p rest =>
              obtain ⟨dp, ip⟩ := p
              exact promote_counter_advances clock dp ip rest k
          omega
        have hK' : ∀ j, r.counter + c ≤ j → d0 < clock j := by
          intro j hj
          exact hK j (by omega)
        rcases ih r.sys r.lights r.counter q d i d0 i0 hcb' hget' h0' hK' with h | h
        · left
          obtain ⟨n, sys', lm', k', r2, hrun, htick2, he⟩ := h
          refine ⟨n + 1, sys', lm', k', r2, ?_, htick2, he⟩
          have hn : n + 1 = 1 + n := by omega
          rw [hn, runTicks_add clock 1 n sys lm k r.sys r.lights r.counter
            (runTicks_one clock sys lm k r htick)]
          exact hrun
        · right
          obtain ⟨n, sys', lm', k', q', hrun, hcb2, hlt, hget2⟩ := h
          refine ⟨n + 1, sys', lm', k', q', ?_, hcb2, hlt, hget2⟩
          have hn : n + 1 = 1 + n := by omega
          rw [hn, runTicks_add clock 1 n sys lm k r.sys r.lights r.counter
            (runTicks_one clock sys lm k r htick)]
          exact hrun
      · -- at least one entry promoted, ours not: its index drops
        right
        refine ⟨1, r.sys, r.lights, r.counter,
          q - (promote clock sys.dirty_schedule k).1.length,
          runTicks_one clock sys lm k r htick, hcb', by omega, ?_⟩
        exact tick_schedule_shift clock sys lm k r htick q d i hget (by omega)

/-- Liveness: with a monotone unbounded clock and total callbacks, every
entry of the reschedule queue is eventually evaluated, at a time no earlier
than its due time. -/
theorem live (clock : Clock)
    (hmono : ∀ a b, a ≤ b → clock a ≤ clock b)
    (hub : ∀ q : ℚ, ∃ N, ∀ j, N ≤ j → q < clock j) :
    ∀ (q : Nat) (sys : PlatformBatchLightSystem) (lm : LightMap) (k : Nat)
      (d : ℚ) (i : Nat),
      callbacksTotal lm →
      sys.dirty_schedule.get? q = some (d, i) →
      evaluatedAfterDue clock sys lm k d i := by
  intro q
  induction q using Nat.strong_induction_on with
  | _ q ih =>
    intro sys lm k d i hcb hget
    have hql : q < sys.dirty_schedule.length := by
      by_contra hc
      rw [List.get?_eq_none.mpr (by omega)] at hget
      cases hget
    obtain ⟨⟨d0, i0⟩, h0⟩ : ∃ p, sys.dirty_schedule.get? 0 = some p := by
      cases hs : sys.dirty_schedule with
      | nil => rw [hs] at hql; simp at hql
      | cons p rest => exact ⟨p, rfl⟩
    obtain ⟨N, hN⟩ := hub d0
    have hK : ∀ j, k + (N - k) ≤ j → d0 < clock j := by
      intro j hj
      exact hN j (by omega)
    rcases live_aux clock hmono (N - k) sys lm k q d i d0 i0 hcb hget h0 hK with h | h
    · exact h
    · obtain ⟨n, sys', lm', k', q', hrun, hcb', hlt, hget'⟩ := h
      obtain ⟨n2, s2, l2, k2, r2, hrun2, htick2, he2⟩ :=
        ih q' hlt sys' lm' k' d i hcb' hget'
      exact ⟨n + n2, s2, l2, k2, r2,
        by rw [runTicks_add clock n n2 sys lm k sys' lm' k' hrun]; exact hrun2,
        htick2, he2⟩

/-! ### Claim theorems -/

/-- C1: the claim — on every tick the dirty set is ordered entirely by
`sortKey` before run detection — fails on the code: `_send_updates` calls
`sorted(self.dirty_lights, key=self.sort_function)` but discards the result,
so the dirty list is handed to run partitioning in insertion order.  With
`dirty_lights = [1, 0]` and `sort_function i = i`, channel 1 is processed and
dispatched before channel 0 although its sort key is larger. -/
theorem C1_dirty_set_processed_unsorted :
    (tick (constClock 0) { demoSystem with dirty_lights := [1, 0] } demoLights 0).map
        (fun r => r.batches)
      = .ok [[(1, 101, 0)], [(0, 100, 0)]]
    ∧ demoSystem.sort_function 0 < demoSystem.sort_function 1 := by
  constructor
  · rfl
  · show (0 : ℚ) < 1
    norm_num

/-- C3: the claim — at the start of every tick every due reschedule entry is
promoted, the queue having been sorted by due time — fails on the code: the
`sorted(self.dirty_schedule, ...)` result is discarded, and the promotion
loop pops only from the head of the unsorted queue.  With the queue
`[(10, 0), (5, 1)]` at time 6, the head is not due, so the loop stops at once
and the due entry `(5, 1)` remains in the queue. -/
theorem C3_due_reschedule_left_in_queue :
    promote (constClock 6) [((10 : ℚ), 0), ((5 : ℚ), 1)] 0
      = ([], [((10 : ℚ), 0), ((5 : ℚ), 1)], 1)
    ∧ (5 : ℚ) ≤ 6 := by
  constructor
  · rfl
  · norm_num

/-- C4: the claim — after a fade is reported complete, every evaluation
before the next `set_fade` returns the cached brightness with zero duration
and complete status without invoking the callback, for every terminal
brightness including 0 — fails on the code: the guard
`if self._last_brightness:` is Python truthiness, so a cached terminal
brightness of `0` is treated as unset.  For a light with
`_last_brightness = 0`, the next evaluation invokes the stored callback again
(invoked-flag `true`) and returns its fresh value `(7, 250, incomplete)`
instead of the cached `(0, 0, complete)`. -/
theorem C4_zero_terminal_brightness_not_cached :
    (zeroCachedLight.get_fade_and_brightness 3).map (fun r => (r.1, r.2.2))
      = .ok ((7, 250, false), true)
    ∧ zeroCachedLight.last_brightness = some 0 := by
  exact ⟨rfl, rfl⟩

/-- C9: the claim — constructing the scheduler with `maxBatchSize <= 0` fails
fast at construction — fails on the code: `__init__` stores every argument
unvalidated, so construction with `max_batch_size = 0` succeeds, and the
misbehaviour surfaces at the first tick that flushes a light: the write sink
is invoked with an empty batch before the real entry. -/
theorem C9_malformed_config_not_rejected :
    badSystem.max_batch_size = 0
    ∧ (tick (constClock 0) (badSystem.mark_dirty 0) demoLights 0).map (fun r => r.batches)
      = .ok [[], [(0, 100, 0)]] := by
  exact ⟨rfl, rfl⟩

/-- C10: evaluating a channel requires a prior `set_fade`: on a light whose
callback was never stored and whose terminal cache is unset,
`get_fade_and_brightness` calls the `None` callback and raises; conversely
any successful evaluation requires a stored callback or a cached terminal
brightness. -/
theorem C10_evaluation_requires_callback_or_cache :
    (∀ (l : PlatformBatchLight) (t : ℚ), l.callback = none → l.last_brightness = none →
      l.get_fade_and_brightness t = .error "TypeError: NoneType object is not callable")
    ∧ ∀ (l : PlatformBatchLight) (t : ℚ) (r : EvalResult),
        l.get_fade_and_brightness t = .ok r →
        l.callback.isSome = true ∨ l.last_brightness.isSome = true := by
  constructor
  · intro l t h1 h2
    simp [PlatformBatchLight.get_fade_and_brightness, h1, h2, pyTruthy]
  · intro l t r h
    unfold PlatformBatchLight.get_fade_and_brightness at h
    by_cases hc : pyTruthy l.last_brightness = true
    · right
      cases hlb : l.last_brightness with
      | none => rw [hlb] at hc; simp [pyTruthy] at hc
      | some b => simp
    · cases hcb : l.callback with
      | none => rw [if_neg hc, hcb] at h; exact absurd h (by simp)
      | some cb => left; simp [hcb]

/-- C10 witness: a light fresh out of `__init__` fails to evaluate. -/
theorem C10_witness :
    (PlatformBatchLight.init 3 50).get_fade_and_brightness 2
      = .error "TypeError: NoneType object is not callable" :=
  C10_evaluation_requires_callback_or_cache.1 (PlatformBatchLight.init 3 50) 2 rfl rfl

/-- C5: no batch dispatched to the write sink during a tick has more than
`max_batch_size` entries (given `max_batch_size ≥ 1`): an entry joins the
current sub-batch only while its length is strictly below the bound, and a
fresh sub-batch starts as a singleton. -/
theorem C5_batch_size_bound (clock : Clock) (sys : PlatformBatchLightSystem)
    (lm : LightMap) (k : Nat) (r : TickResult)
    (hm : 1 ≤ sys.max_batch_size) (hok : tick clock sys lm k = .ok r) :
    ∀ b ∈ r.batches, b.length ≤ sys.max_batch_size := by
  obtain ⟨st, hrun, _, _, hb, _, _⟩ := tick_elim clock sys lm k r hok
  rw [hb]
  exact runLoopAux_batches_le clock sys.max_batch_size hm sys.is_sequential_function
    _ _ _ _ _ hrun (by simp)

/-- C5 witness: the spec's `maxBatchSize = 2` scenario — three mutually
adjacent completed channels produce batches `[c0, c1]` and `[c2]`; the first
dispatched batch is within the bound. -/
theorem C5_witness :
    List.length [((0 : Nat), (100 : Nat), (0 : Nat)), (1, 101, 0)]
      ≤ scenarioSystem.max_batch_size := by
  obtain ⟨r, hok⟩ : ∃ r, tick (constClock 0) scenarioSystem demoLights 0 = .ok r := ⟨_, rfl⟩
  have hb : r.batches = [[(0, 100, 0), (1, 101, 0)], [(2, 102, 0)]] :=
    (congrArg (fun x : Except String TickResult =>
      (x.map (fun y : TickResult => y.batches)).toOption.getD []) hok).symm
  refine C5_batch_size_bound (constClock 0) scenarioSystem demoLights 0 r
    (by norm_num [scenarioSystem, demoSystem, PlatformBatchLightSystem.init]) hok _ ?_
  rw [hb]
  simp

/-- C6: every batch dispatched to the write sink during a tick is
duration-homogeneous — all its `(channel, brightness, fadeDuration)` entries
carry the same fade duration — and each entry's brightness and duration are
exactly those reported by one of the tick's channel evaluations. -/
theorem C6_duration_homogeneity (clock : Clock) (sys : PlatformBatchLightSystem)
    (lm : LightMap) (k : Nat) (r : TickResult) (hok : tick clock sys lm k = .ok r) :
    ∀ b ∈ r.batches, (∀ e1 ∈ b, ∀ e2 ∈ b, e1.2.2 = e2.2.2)
      ∧ ∀ e ∈ b, ∃ dn tt, (e.1, e.2.1, e.2.2, dn, tt) ∈ r.trace := by
  obtain ⟨st, hrun, _, _, hb, htr, _⟩ := tick_elim clock sys lm k r hok
  have h := runLoopAux_batches_hom clock sys.max_batch_size sys.is_sequential_function
    _ _ _ _ _ hrun (by simp) (by simp)
  rw [hb, htr]
  exact fun b hbm => ⟨h.1 b hbm, h.2 b hbm⟩

/-- C6 witness: the scenario tick's first dispatched batch is
duration-homogeneous and its entries match the tick's evaluation trace. -/
theorem C6_witness :
    (∀ e1 ∈ ([((0 : Nat), (100 : Nat), (0 : Nat)), (1, 101, 0)] : Batch),
      ∀ e2 ∈ ([((0 : Nat), (100 : Nat), (0 : Nat)), (1, 101, 0)] : Batch),
        e1.2.2 = e2.2.2)
    ∧ ∀ e ∈ ([((0 : Nat), (100 : Nat), (0 : Nat)), (1, 101, 0)] : Batch),
        ∃ dn tt, (e.1, e.2.1, e.2.2, dn, tt) ∈
          ([(0, 100, 0, true, 0), (1, 101, 0, true, 0), (2, 102, 0, true, 0)] :
            List TraceEvent) := by
  obtain ⟨r, hok⟩ : ∃ r, tick (constClock 0) scenarioSystem demoLights 0 = .ok r := ⟨_, rfl⟩
  have hb : r.batches = [[(0, 100, 0), (1, 101, 0)], [(2, 102, 0)]] :=
    (congrArg (fun x : Except String TickResult =>
      (x.map (fun y : TickResult => y.batches)).toOption.getD []) hok).symm
  have htr : r.trace = [(0, 100, 0, true, 0), (1, 101, 0, true, 0), (2, 102, 0, true, 0)] :=
    (congrArg (fun x : Except String TickResult =>
      (x.map (fun y : TickResult => y.trace)).toOption.getD []) hok).symm
  have h := C6_duration_homogeneity (constClock 0) scenarioSystem demoLights 0 r hok
    [(0, 100, 0), (1, 101, 0)] (by rw [hb]; simp)
  rw [htr] at h
  exact h

/-- C8: the write sink is never invoked with an empty batch (given
`max_batch_size ≥ 1`): the trailing sub-batch is dispatched only when
non-empty, and at a mid-run dispatch the current sub-batch cannot be empty
because an empty sub-batch always accepts the incoming entry. -/
theorem C8_sink_batches_nonempty (clock : Clock) (sys : PlatformBatchLightSystem)
    (lm : LightMap) (k : Nat) (r : TickResult)
    (hm : 1 ≤ sys.max_batch_size) (hok : tick clock sys lm k = .ok r) :
    ∀ b ∈ r.batches, b ≠ [] := by
  obtain ⟨st, hrun, _, _, hb, _, _⟩ := tick_elim clock sys lm k r hok
  rw [hb]
  exact runLoopAux_batches_ne clock sys.max_batch_size hm sys.is_sequential_function
    _ _ _ _ _ hrun (by simp)

/-- C8 witness: the scenario tick's second dispatched batch is non-empty. -/
theorem C8_witness :
    ([((2 : Nat), (102 : Nat), (0 : Nat))] : Batch) ≠ [] := by
  obtain ⟨r, hok⟩ : ∃ r, tick (constClock 0) scenarioSystem demoLights 0 = .ok r := ⟨_, rfl⟩
  have hb : r.batches = [[(0, 100, 0), (1, 101, 0)], [(2, 102, 0)]] :=
    (congrArg (fun x : Except String TickResult =>
      (x.map (fun y : TickResult => y.batches)).toOption.getD []) hok).symm
  refine C8_sink_batches_nonempty (constClock 0) scenarioSystem demoLights 0 r
    (by norm_num [scenarioSystem, demoSystem, PlatformBatchLightSystem.init]) hok _ ?_
  rw [hb]
  simp

/-- C7: the claim — duplicate dirty markings of one channel collapse into a
single evaluation per tick — fails on the code: deduplication skips only a
light equal to the *immediately preceding* one, and since the
`sorted(self.dirty_lights, ...)` result is discarded, non-adjacent
duplicates survive.  After `set_fade` on channel 0, then channel 1, then
channel 0 again (all before any flush), the dirty list is `[0, 1, 0]` and
the next tick evaluates channel 0 twice and dispatches it twice (both times
with the latest callback's brightness 7, so the latest-callback part of the
claim does hold). -/
theorem C7_duplicate_dirty_not_collapsed :
    (tick (constClock 0) dupState.1 dupState.2 0).map
        (fun r => (r.trace.countP (fun e => e.1 == 0), r.batches))
      = .ok (2, [[(0, 7, 0)], [(1, 6, 0)], [(0, 7, 0)]])
    ∧ dupState.1.dirty_lights = [0, 1, 0] := by
  exact ⟨rfl, rfl⟩

/-- C2: no lost updates, under a monotone unbounded clock and callbacks
stored on every light (the atomic-tick, single-loop model).  (i) The next
tick succeeds and evaluates every channel of the dirty set.  (ii) The
schedule after a tick is exactly the un-promoted remainder plus one
reschedule entry `(t + fade_ms / 1000, channel)` per evaluation that
reported its fade incomplete at time `t` — in particular an evaluation that
reports completion is not rescheduled, ending the cycle.  (iii) Every entry
of the reschedule queue is eventually evaluated at some later tick, at an
evaluation time no earlier than its due time. -/
theorem C2_no_lost_updates (clock : Clock) (sys : PlatformBatchLightSystem)
    (lm : LightMap) (k : Nat)
    (hmono : ∀ a b, a ≤ b → clock a ≤ clock b)
    (hub : ∀ q : ℚ, ∃ N, ∀ j, N ≤ j → q < clock j)
    (hcb : callbacksTotal lm) :
    (∃ r, tick clock sys lm k = .ok r)
    ∧ (∀ r, tick clock sys lm k = .ok r →
        (∀ i ∈ sys.dirty_lights, ∃ e ∈ r.trace, e.1 = i)
        ∧ r.sys.dirty_schedule
            = (promote clock sys.dirty_schedule k).2.1 ++ r.trace.filterMap schedOf)
    ∧ (∀ (q : Nat) (d : ℚ) (i : Nat), sys.dirty_schedule.get? q = some (d, i) →
        evaluatedAfterDue clock sys lm k d i) := by
  refine ⟨?_, ?_, ?_⟩
  · obtain ⟨r, htick, _, _⟩ := tick_total clock sys lm k hcb
    exact ⟨r, htick⟩
  · intro r hok
    constructor
    · intro i hi
      exact tick_dirty_evaluated clock sys lm k r hok i (List.mem_append_left _ hi)
    · exact tick_schedule_eq clock sys lm k r hok
  · intro q d i hget
    exact live clock hmono hub q sys lm k d i hcb hget

/-- C2 witness: with the clock reading `n` at its `n`-th call, channel 0
dirty and channel 1 rescheduled for time 2, the next tick succeeds and
channel 1 is eventually evaluated no earlier than time 2. -/
theorem C2_witness :
    (∃ r, tick natClock liveSystem demoLights 0 = .ok r)
    ∧ evaluatedAfterDue natClock liveSystem demoLights 0 2 1 := by
  have hmono : ∀ a b, a ≤ b → natClock a ≤ natClock b := by
    intro a b h
    simp only [natClock]
    exact_mod_cast h
  have hub : ∀ q : ℚ, ∃ N, ∀ j, N ≤ j → q < natClock j := by
    intro q
    refine ⟨⌈q⌉.toNat + 1, fun j hj => ?_⟩
    simp only [natClock]
    have h1 : q ≤ (⌈q⌉ : ℚ) := Int.le_ceil q
    have h2 : ((⌈q⌉ : ℤ) : ℚ) ≤ ((⌈q⌉.toNat : ℕ) : ℚ) := by
      exact_mod_cast Int.self_le_toNat ⌈q⌉
    have h3 : ((⌈q⌉.toNat : ℕ) : ℚ) < ((j : ℕ) : ℚ) := by
      have hj2 : ⌈q⌉.toNat < j := by omega
      exact_mod_cast hj2
    calc q ≤ (⌈q⌉ : ℚ) := h1
      _ ≤ ((⌈q⌉.toNat : ℕ) : ℚ) := h2
      _ < _ := h3
  have h := C2_no_lost_updates natClock liveSystem demoLights 0 hmono hub (fun i => rfl)
  exact ⟨h.1, h.2.2 0 2 1 rfl⟩
